import Mathlib

/-
  Verification of the structural parser and dependency resolver of
  `cs_interface_mapper.py` (a regex-based C# interface mapper).

  All Python strings are modelled as `List Char`.  Python's `str.strip()`
  is `pyStrip`, its whitespace class is `pyIsSpace`.  Each definition
  mirrors one function (or one inline loop) of the source file; comments
  note the corresponding source lines.
-/

set_option maxHeartbeats 1000000

/-- Whitespace test matching Python's ASCII whitespace class
(space, tab, newline, carriage return, vertical tab, form feed). -/
def pyIsSpace (c : Char) : Bool :=
  c == ' ' || c == '\t' || c == '\n' || c == '\x0d' || c == '\x0b' || c == '\x0c'

/-- Python `str.strip()`: drop leading and trailing whitespace. -/
def pyStrip (cs : List Char) : List Char :=
  ((cs.dropWhile pyIsSpace).reverse.dropWhile pyIsSpace).reverse

/-- Net brace depth of a character list: number of opening braces minus
number of closing braces.  Specification vocabulary for the block extractor. -/
def braceNet (l : List Char) : Int :=
  (l.count '\x7b' : Int) - (l.count '\x7d' : Int)

/-- Per-character contribution to `braceNet`. -/
def braceStep (c : Char) : Int :=
  if c = '\x7b' then 1 else if c = '\x7d' then -1 else 0

/-- Loop of `_extract_brace_block` (source lines 197-209), acting on the
suffix `src[start:]`.  The Python loop walks an index `i` over `src`,
increments `depth` on an opening brace, decrements it on a closing brace and
returns `src[start:i+1]` when the depth reaches zero; if the text runs out it
returns `src[start:]`.  Here the suffix is consumed structurally: the
accumulated cons cells are exactly the slice the Python code returns. -/
def extractBraceAux : List Char → Int → List Char
  | [], _ => []
  | c :: rest, depth =>
    if c = '\x7b' then c :: extractBraceAux rest (depth + 1)
    else if c = '\x7d' then
      (if depth - 1 = 0 then [c] else c :: extractBraceAux rest (depth - 1))
    else c :: extractBraceAux rest depth

/-- `_extract_brace_block(src, start_pos)` (source lines 197-209). -/
def extract_brace_block (src : List Char) (start : Nat) : List Char :=
  extractBraceAux (src.drop start) 0

theorem braceNet_nil : braceNet [] = 0 := by simp [braceNet]

theorem braceNet_cons (c : Char) (l : List Char) :
    braceNet (c :: l) = braceStep c + braceNet l := by
  by_cases h1 : c = '\x7b'
  · subst h1; simp [braceNet, braceStep, List.count_cons]; omega
  · by_cases h2 : c = '\x7d'
    · subst h2; simp [braceNet, braceStep, List.count_cons]; omega
    · have e1 : (('\x7b' : Char) == c) = false := by
        simp [beq_iff_eq]; exact fun h => h1 h.symm
      have e2 : (('\x7d' : Char) == c) = false := by
        simp [beq_iff_eq]; exact fun h => h2 h.symm
      simp [braceNet, braceStep, List.count_cons, h1, h2, e1, e2]

theorem isPrefix_cons_cons {α : Type} (c : α) {l₁ l₂ : List α} (h : l₁ <+: l₂) :
    c :: l₁ <+: c :: l₂ := by
  obtain ⟨t, ht⟩ := h
  exact ⟨t, by rw [List.cons_append, ht]⟩

theorem extractBraceAux_isPrefix (cs : List Char) (d : Int) :
    extractBraceAux cs d <+: cs := by
  induction cs generalizing d with
  | nil => simp [extractBraceAux]
  | cons c rest ih =>
    by_cases h1 : c = '\x7b'
    · simp only [extractBraceAux, if_pos h1]
      exact isPrefix_cons_cons c (ih (d + 1))
    · by_cases h2 : c = '\x7d'
      · simp only [extractBraceAux, if_neg h1, if_pos h2]
        by_cases h3 : d - 1 = 0
        · simp only [if_pos h3]
          exact ⟨rest, rfl⟩
        · simp only [if_neg h3]
          exact isPrefix_cons_cons c (ih (d - 1))
      · simp only [extractBraceAux, if_neg h1, if_neg h2]
        exact isPrefix_cons_cons c (ih d)

theorem getLast?_cons_of_ne_nil {α : Type} (c : α) {l : List α} (h : l ≠ []) :
    (c :: l).getLast? = l.getLast? := by
  cases l with
  | nil => exact absurd rfl h
  | cons b t => simp [List.getLast?_cons_cons]

/-- Behaviour of the extraction loop when a matching close exists: the result
ends with a closing brace, its net depth cancels the incoming depth, and the
depth stays strictly positive on every proper prefix. -/
theorem extractBraceAux_balanced (cs : List Char) (d : Int) (hd : 1 ≤ d)
    (hbal : ∃ n, n ≤ cs.length ∧ d + braceNet (cs.take n) = 0) :
    (extractBraceAux cs d).getLast? = some '\x7d' ∧
    d + braceNet (extractBraceAux cs d) = 0 ∧
    ∀ k, k < (extractBraceAux cs d).length →
      0 < d + braceNet ((extractBraceAux cs d).take k) := by
  induction cs generalizing d with
  | nil =>
    obtain ⟨n, hn, h0⟩ := hbal
    simp only [List.length_nil, Nat.le_zero] at hn
    subst hn
    simp [braceNet_nil] at h0
    omega
  | cons c rest ih =>
    obtain ⟨n, hn, h0⟩ := hbal
    cases n with
    | zero =>
      simp [braceNet_nil] at h0
      omega
    | succ m =>
      rw [List.take_succ_cons, braceNet_cons] at h0
      simp only [List.length_cons, Nat.succ_le_succ_iff] at hn
      by_cases h1 : c = '\x7b'
      · simp only [extractBraceAux, if_pos h1]
        have hstep : braceStep c = 1 := by simp [braceStep, h1]
        rw [hstep] at h0
        obtain ⟨hlast, hnet, hpos⟩ :=
          ih (d + 1) (by omega) ⟨m, hn, by omega⟩
        have hne : extractBraceAux rest (d + 1) ≠ [] := by
          intro he; rw [he] at hlast; simp at hlast
        refine ⟨?_, ?_, ?_⟩
        · rw [getLast?_cons_of_ne_nil c hne]; exact hlast
        · rw [braceNet_cons, hstep]; omega
        · intro k hk
          cases k with
          | zero => simp [braceNet_nil]; omega
          | succ j =>
            rw [List.take_succ_cons, braceNet_cons, hstep]
            have := hpos j (by simpa using Nat.lt_of_succ_lt_succ hk)
            omega
      · by_cases h2 : c = '\x7d'
        · have hstep : braceStep c = -1 := by simp [braceStep, h1, h2]
          rw [hstep] at h0
          by_cases h3 : d - 1 = 0
          · simp only [extractBraceAux, if_neg h1, if_pos h2, if_pos h3]
            refine ⟨by simp [h2], ?_, ?_⟩
            · rw [braceNet_cons, hstep, braceNet_nil]; omega
            · intro k hk
              simp only [List.length_singleton] at hk
              interval_cases k
              simp [braceNet_nil]; omega
          · simp only [extractBraceAux, if_neg h1, if_pos h2, if_neg h3]
            obtain ⟨hlast, hnet, hpos⟩ :=
              ih (d - 1) (by omega) ⟨m, hn, by omega⟩
            have hne : extractBraceAux rest (d - 1) ≠ [] := by
              intro he; rw [he] at hlast; simp at hlast
            refine ⟨?_, ?_, ?_⟩
            · rw [getLast?_cons_of_ne_nil c hne]; exact hlast
            · rw [braceNet_cons, hstep]; omega
            · intro k hk
              cases k with
              | zero => simp [braceNet_nil]; omega
              | succ j =>
                rw [List.take_succ_cons, braceNet_cons, hstep]
                have := hpos j (by simpa using Nat.lt_of_succ_lt_succ hk)
                omega
        · have hstep : braceStep c = 0 := by simp [braceStep, h1, h2]
          rw [hstep] at h0
          simp only [extractBraceAux, if_neg h1, if_neg h2]
          obtain ⟨hlast, hnet, hpos⟩ := ih d hd ⟨m, hn, by omega⟩
          have hne : extractBraceAux rest d ≠ [] := by
            intro he; rw [he] at hlast; simp at hlast
          refine ⟨?_, ?_, ?_⟩
          · rw [getLast?_cons_of_ne_nil c hne]; exact hlast
          · rw [braceNet_cons, hstep]; omega
          · intro k hk
            cases k with
            | zero => simp [braceNet_nil]; omega
            | succ j =>
              rw [List.take_succ_cons, braceNet_cons, hstep]
              have := hpos j (by simpa using Nat.lt_of_succ_lt_succ hk)
              omega

/-- Behaviour of the extraction loop when no matching close exists: the whole
remaining text is returned. -/
theorem extractBraceAux_nomatch (cs : List Char) (d : Int) (hd : 1 ≤ d)
    (h : ∀ n, n ≤ cs.length → d + braceNet (cs.take n) ≠ 0) :
    extractBraceAux cs d = cs := by
  induction cs generalizing d with
  | nil => simp [extractBraceAux]
  | cons c rest ih =>
    by_cases h1 : c = '\x7b'
    · have hstep : braceStep c = 1 := by simp [braceStep, h1]
      simp only [extractBraceAux, if_pos h1]
      rw [ih (d + 1) (by omega)]
      intro m hm
      have := h (m + 1) (by simp; omega)
      rw [List.take_succ_cons, braceNet_cons, hstep] at this
      omega
    · by_cases h2 : c = '\x7d'
      · have hstep : braceStep c = -1 := by simp [braceStep, h1, h2]
        have h3 : ¬ (d - 1 = 0) := by
          intro habs
          have := h 1 (by simp)
          rw [List.take_succ_cons, List.take_zero, braceNet_cons, braceNet_nil,
            hstep] at this
          omega
        simp only [extractBraceAux, if_neg h1, if_pos h2, if_neg h3]
        rw [ih (d - 1) (by omega)]
        intro m hm
        have := h (m + 1) (by simp; omega)
        rw [List.take_succ_cons, braceNet_cons, hstep] at this
        omega
      · have hstep : braceStep c = 0 := by simp [braceStep, h1, h2]
        simp only [extractBraceAux, if_neg h1, if_neg h2]
        rw [ih d hd]
        intro m hm
        have := h (m + 1) (by simp; omega)
        rw [List.take_succ_cons, braceNet_cons, hstep] at this
        omega

/-- C2: for a start offset pointing at an opening brace, the Block Extractor
returns a span starting with that brace; if some prefix of the remaining text
balances the braces (a matching close exists) the span is a prefix of the
remainder ending in the matching closing brace, with the nesting depth zero at
the end and strictly positive on every proper non-empty prefix (depth returns
to zero exactly once, at the end); otherwise it returns the remainder of the
text from the start offset. -/
theorem C2_block_extractor (src : List Char) (start : Nat) (h : start < src.length)
    (hbrace : src.get ⟨start, h⟩ = '\x7b') :
    (extract_brace_block src start).head? = some '\x7b' ∧
    ((∃ n, 0 < n ∧ n ≤ (src.drop start).length ∧ braceNet ((src.drop start).take n) = 0) →
      (extract_brace_block src start <+: src.drop start ∧
       (extract_brace_block src start).getLast? = some '\x7d' ∧
       braceNet (extract_brace_block src start) = 0 ∧
       ∀ k, 0 < k → k < (extract_brace_block src start).length →
         0 < braceNet ((extract_brace_block src start).take k))) ∧
    ((¬ ∃ n, 0 < n ∧ n ≤ (src.drop start).length ∧ braceNet ((src.drop start).take n) = 0) →
      extract_brace_block src start = src.drop start) := by
  have hdrop : src.drop start = src.get ⟨start, h⟩ :: src.drop (start + 1) :=
    List.drop_eq_getElem_cons h
  rw [hbrace] at hdrop
  have hstep : braceStep '\x7b' = 1 := by simp [braceStep]
  have hunfold : extract_brace_block src start =
      '\x7b' :: extractBraceAux (src.drop (start + 1)) 1 := by
    rw [extract_brace_block, hdrop]
    simp [extractBraceAux]
  refine ⟨by rw [hunfold]; rfl, ?_, ?_⟩
  · rintro ⟨n, hn0, hnle, hnet⟩
    cases n with
    | zero => omega
    | succ m =>
      rw [hdrop, List.take_succ_cons, braceNet_cons, hstep] at hnet
      rw [hdrop, List.length_cons] at hnle
      obtain ⟨hlast, hnetr, hpos⟩ :=
        extractBraceAux_balanced (src.drop (start + 1)) 1 (by omega)
          ⟨m, by omega, by omega⟩
      have hne : extractBraceAux (src.drop (start + 1)) 1 ≠ [] := by
        intro he; rw [he] at hlast; simp at hlast
      refine ⟨?_, ?_, ?_, ?_⟩
      · rw [hunfold, hdrop]
        exact isPrefix_cons_cons '\x7b' (extractBraceAux_isPrefix (src.drop (start + 1)) 1)
      · rw [hunfold, getLast?_cons_of_ne_nil _ hne]; exact hlast
      · rw [hunfold, braceNet_cons, hstep]; omega
      · intro k hk0 hklen
        cases k with
        | zero => omega
        | succ j =>
          rw [hunfold, List.take_succ_cons, braceNet_cons, hstep]
          rw [hunfold, List.length_cons] at hklen
          have := hpos j (by omega)
          omega
  · intro hno
    rw [hunfold, hdrop]
    congr 1
    apply extractBraceAux_nomatch (src.drop (start + 1)) 1 (by omega)
    intro m hm heq
    apply hno
    refine ⟨m + 1, by omega, ?_, ?_⟩
    · rw [hdrop, List.length_cons]; omega
    · rw [hdrop, List.take_succ_cons, braceNet_cons, hstep]; omega

theorem C2_block_extractor_witness :
    extract_brace_block ("\x7ba\x7d".toList) 0 = "\x7ba\x7d".toList ∧
    (extract_brace_block ("\x7ba\x7d".toList) 0).getLast? = some '\x7d' := by
  have h := C2_block_extractor ("\x7ba\x7d".toList) 0 (by decide) (by decide)
  have hb := h.2.1 ⟨3, by decide, by decide, by decide⟩
  exact ⟨by decide, hb.2.1⟩

/-- Word character test for the Python regex class `\w` (ASCII view). -/
def isWordChar (c : Char) : Bool :=
  c.isAlphanum || c == '_'

/-- Python substring containment (`needle in haystack`). -/
def containsSub (w cs : List Char) : Bool :=
  cs.tails.any (fun t => w.isPrefixOf t)

/-- Generic left-to-right `re.sub(pattern, '', text)` driver: `step cs`
returns `some n` when the pattern matches a prefix of `cs` of length `n ≥ 1`;
the match is removed and scanning resumes after it; otherwise one character is
kept and scanning moves on.  The fuel is the text length, which suffices
because every step consumes at least one character. -/
def scanRemove (step : List Char → Option Nat) : Nat → List Char → List Char
  | 0, cs => cs
  | _ + 1, [] => []
  | fuel + 1, c :: rest =>
    match step (c :: rest) with
    | some n => if n = 0 then c :: scanRemove step fuel rest
                else scanRemove step fuel ((c :: rest).drop n)
    | none => c :: scanRemove step fuel rest

/-- Character class `[\w\s,()="\.]` used by the attribute-stripping regexes. -/
def isFieldAttrChar (c : Char) : Bool :=
  isWordChar c || pyIsSpace c || c == ',' || c == '(' || c == ')' ||
    c == '=' || c == '"' || c == '.'

/-- One match of `\[[\w\s,()="\.]+\]\s*` at the head of the text (the
attribute-removal regex of `_parse_parameters`, source line 241, and the
`attrs` group shape of the field/method regexes).  The class contains neither
`[` nor `]`, so the greedy run is deterministic: a maximal run of class
characters followed by `]`, then trailing whitespace. -/
def attrStep (cs : List Char) : Option Nat :=
  match cs with
  | '[' :: rest =>
    let run := rest.takeWhile isFieldAttrChar
    if run = [] then none
    else
      match rest.drop run.length with
      | ']' :: tail => some (2 + run.length + (tail.takeWhile pyIsSpace).length)
      | _ => none
  | _ => none

structure ParameterInfo where
  name : List Char
  type_name : List Char
  default_value : Option (List Char)
deriving DecidableEq

/-- Fragment-splitting loop of `_parse_parameters` (source lines 219-236):
split on commas at bracket depth zero, where both `<` and `(` increase and
both `>` and `)` decrease the depth; each fragment is stripped and dropped if
empty (`if current: params.append(current)`). -/
def splitParamFrags : List Char → Int → List Char → List (List Char)
  | [], _, current =>
    if pyStrip current ≠ [] then [pyStrip current] else []
  | ch :: rest, depth, current =>
    if ch = '<' ∨ ch = '(' then splitParamFrags rest (depth + 1) (current ++ [ch])
    else if ch = '>' ∨ ch = ')' then splitParamFrags rest (depth - 1) (current ++ [ch])
    else if ch = ',' ∧ depth = 0 then
      (if pyStrip current ≠ [] then [pyStrip current] else []) ++
        splitParamFrags rest depth []
    else splitParamFrags rest depth (current ++ [ch])

/-- One `p.startswith(mod)`-guarded strip of a parameter modifier
(source lines 243-245). -/
def stripMod (m p : List Char) : List Char :=
  if m.isPrefixOf p then p.drop m.length else p

/-- Sequential modifier stripping, in the Python tuple's order
`('ref ', 'out ', 'in ', 'params ', 'this ')`. -/
def stripParamModifiers (p : List Char) : List Char :=
  stripMod "this ".toList (stripMod "params ".toList (stripMod "in ".toList
    (stripMod "out ".toList (stripMod "ref ".toList p))))

/-- Index of the last occurrence of a character. -/
def lastIdxOf (a : Char) (cs : List Char) : Option Nat :=
  match cs.reverse.findIdx? (fun c => c == a) with
  | some k => some (cs.length - 1 - k)
  | none => none

/-- Python `p.rsplit('=', 1)` together with the subsequent strips
(source lines 247-249): the part before the last `=` (stripped) and the
default-value text after it (stripped), if any. -/
def rsplitEqStrip (p : List Char) : List Char × Option (List Char) :=
  match lastIdxOf '=' p with
  | some i => (pyStrip (p.take i), some (pyStrip (p.drop (i + 1))))
  | none => (pyStrip p, none)

/-- Python `s.rsplit(None, 1)` (source line 252): split off the last
whitespace-separated token; empty strings never appear in the result. -/
def rsplitNone1 (t : List Char) : List (List Char) :=
  let r := t.reverse.dropWhile pyIsSpace
  if r = [] then []
  else
    let nameRev := r.takeWhile (fun c => !pyIsSpace c)
    let r3 := (r.drop nameRev.length).dropWhile pyIsSpace
    if r3 = [] then [nameRev.reverse]
    else [r3.reverse, nameRev.reverse]

/-- Per-fragment processing of `_parse_parameters` (source lines 239-264):
remove attributes, strip parameter-passing modifiers, split a trailing
`= default` clause, then split the remaining "type name" pair on the last
whitespace boundary.  Two tokens give (type, name); one token gives the
unknown-type sentinel `?`; no token contributes nothing. -/
def parse_param_fragment (p0 : List Char) : Option ParameterInfo :=
  let p1 := pyStrip (scanRemove attrStep p0.length p0)
  let p2 := stripParamModifiers p1
  match rsplitEqStrip p2 with
  | (type_and_name, default_val) =>
    match rsplitNone1 type_and_name with
    | [t, n] => some ⟨n, pyStrip t, default_val⟩
    | [t] => some ⟨t, "?".toList, default_val⟩
    | _ => none

/-- `_parse_parameters(param_str)` (source lines 212-265).  The Python code
first builds the stripped fragment list, then converts each fragment,
skipping those with no remaining tokens; that is a `filterMap`. -/
def parse_parameters (param_str : List Char) : List ParameterInfo :=
  if pyStrip param_str = [] then []
  else (splitParamFrags (pyStrip param_str) 0 []).filterMap parse_param_fragment

/-- All top-level comma-separated fragments (stripped), with empty fragments
retained — the claim's notion of "one entry per top-level comma-separated
fragment", using the splitter's own depth discipline. -/
def topFragsParams : List Char → Int → List Char → List (List Char)
  | [], _, current => [pyStrip current]
  | ch :: rest, depth, current =>
    if ch = '<' ∨ ch = '(' then topFragsParams rest (depth + 1) (current ++ [ch])
    else if ch = '>' ∨ ch = ')' then topFragsParams rest (depth - 1) (current ++ [ch])
    else if ch = ',' ∧ depth = 0 then pyStrip current :: topFragsParams rest depth []
    else topFragsParams rest depth (current ++ [ch])

/-- "Manually counting top-level commas outside `<...>` and `(...)`", with the
same depth discipline as the splitter. -/
def topLevelCommaCount : List Char → Int → Nat
  | [], _ => 0
  | ch :: rest, depth =>
    if ch = '<' ∨ ch = '(' then topLevelCommaCount rest (depth + 1)
    else if ch = '>' ∨ ch = ')' then topLevelCommaCount rest (depth - 1)
    else if ch = ',' ∧ depth = 0 then topLevelCommaCount rest depth + 1
    else topLevelCommaCount rest depth

theorem topFragsParams_length (cs : List Char) :
    ∀ (d : Int) (current : List Char),
      (topFragsParams cs d current).length = topLevelCommaCount cs d + 1 := by
  induction cs with
  | nil => intro d current; simp [topFragsParams, topLevelCommaCount]
  | cons ch rest ih =>
    intro d current
    by_cases h1 : ch = '<' ∨ ch = '('
    · simp only [topFragsParams, topLevelCommaCount, if_pos h1]; exact ih _ _
    · by_cases h2 : ch = '>' ∨ ch = ')'
      · simp only [topFragsParams, topLevelCommaCount, if_neg h1, if_pos h2]
        exact ih _ _
      · by_cases h3 : ch = ',' ∧ d = 0
        · simp only [topFragsParams, topLevelCommaCount, if_neg h1, if_neg h2,
            if_pos h3, List.length_cons]
          rw [ih _ _]
        · simp only [topFragsParams, topLevelCommaCount, if_neg h1, if_neg h2,
            if_neg h3]
          exact ih _ _

theorem splitParamFrags_eq_filter (cs : List Char) :
    ∀ (d : Int) (current : List Char),
      splitParamFrags cs d current =
        (topFragsParams cs d current).filter (fun f => f ≠ []) := by
  induction cs with
  | nil =>
    intro d current
    by_cases hc : pyStrip current = []
    · simp [splitParamFrags, topFragsParams, hc]
    · simp [splitParamFrags, topFragsParams, hc]
  | cons ch rest ih =>
    intro d current
    by_cases h1 : ch = '<' ∨ ch = '('
    · simp only [splitParamFrags, topFragsParams, if_pos h1]; exact ih _ _
    · by_cases h2 : ch = '>' ∨ ch = ')'
      · simp only [splitParamFrags, topFragsParams, if_neg h1, if_pos h2]
        exact ih _ _
      · by_cases h3 : ch = ',' ∧ d = 0
        · simp only [splitParamFrags, topFragsParams, if_neg h1, if_neg h2,
            if_pos h3]
          by_cases hc : pyStrip current = []
          · simp [hc, List.filter_cons, ih _ _]
          · simp [hc, List.filter_cons, ih _ _]
        · simp only [splitParamFrags, topFragsParams, if_neg h1, if_neg h2,
            if_neg h3]
          exact ih _ _

theorem length_filterMap_of_all_some {α β : Type} (f : α → Option β) :
    ∀ l : List α, (∀ x ∈ l, f x ≠ none) → (l.filterMap f).length = l.length := by
  intro l
  induction l with
  | nil => intro _; simp
  | cons x xs ih =>
    intro h
    have hx := h x (List.mem_cons_self x xs)
    cases hfx : f x with
    | none => exact absurd hfx hx
    | some b =>
      simp only [List.filterMap_cons, hfx, List.length_cons]
      rw [ih (fun y hy => h y (List.mem_cons_of_mem x hy))]

/-- C7 counterexample: on `"a,,b"` the splitter yields 2 entries although the
string has 2 top-level commas, i.e. 3 top-level comma-separated fragments —
the empty middle fragment is dropped, so the entry count does not equal the
fragment count. -/
theorem C7_parameter_splitter_counterexample :
    (parse_parameters ("a,,b".toList)).length = 2 ∧
    topLevelCommaCount ("a,,b".toList) 0 = 2 ∧
    (parse_parameters ("a,,b".toList)).length ≠
      topLevelCommaCount ("a,,b".toList) 0 + 1 := by
  decide

/-- C7 (amended): for every parameter-list string all of whose top-level
comma-separated fragments are non-empty after stripping and survive
per-fragment processing (at least one token remains after attribute and
modifier removal), the Parameter Splitter produces exactly one ParameterSpec
per top-level comma-separated fragment, i.e. the top-level comma count plus
one; fragments that strip to nothing are silently dropped. -/
theorem C7_parameter_splitter_amended (s : List Char)
    (hfrag : ∀ f ∈ topFragsParams (pyStrip s) 0 [],
      f ≠ [] ∧ parse_param_fragment f ≠ none) :
    (parse_parameters s).length = topLevelCommaCount (pyStrip s) 0 + 1 := by
  by_cases hs : pyStrip s = []
  · exfalso
    have hmem : ([] : List Char) ∈ topFragsParams (pyStrip s) 0 [] := by
      rw [hs]
      simp [topFragsParams, pyStrip]
    exact (hfrag [] hmem).1 rfl
  · rw [parse_parameters, if_neg hs, splitParamFrags_eq_filter]
    have hfilter : (topFragsParams (pyStrip s) 0 []).filter (fun f => f ≠ []) =
        topFragsParams (pyStrip s) 0 [] := by
      apply List.filter_eq_self.mpr
      intro a ha
      simpa using (hfrag a ha).1
    rw [hfilter]
    rw [length_filterMap_of_all_some parse_param_fragment _
      (fun f hf => (hfrag f hf).2)]
    exact topFragsParams_length _ _ _

theorem C7_parameter_splitter_amended_witness :
    (parse_parameters ("Dictionary<int, string> map, int x".toList)).length =
      topLevelCommaCount (pyStrip ("Dictionary<int, string> map, int x".toList)) 0 + 1 :=
  C7_parameter_splitter_amended _ (by decide)

/-- C8: the fragment `int count = 0` yields ParameterSpec
(name "count", type "int", default "0"), and the whitespace-free fragment
`Widget` yields (name "Widget", type "?", no default) without an error. -/
theorem C8_parameter_fragments :
    parse_parameters ("int count = 0".toList) =
      [⟨"count".toList, "int".toList, some ("0".toList)⟩] ∧
    parse_parameters ("Widget".toList) =
      [⟨"Widget".toList, "?".toList, none⟩] := by
  decide

/-- Net angle-bracket depth (occurrences of `<` minus `>`), the depth notion
of the base-list splitting loop. -/
def angleNet (l : List Char) : Int :=
  (l.count '<' : Int) - (l.count '>' : Int)

/-- Per-character contribution to `angleNet`. -/
def angleStep (c : Char) : Int :=
  if c = '<' then 1 else if c = '>' then -1 else 0

theorem angleNet_nil : angleNet [] = 0 := by simp [angleNet]

theorem angleNet_cons (c : Char) (l : List Char) :
    angleNet (c :: l) = angleStep c + angleNet l := by
  by_cases h1 : c = '<'
  · subst h1; simp [angleNet, angleStep, List.count_cons]; omega
  · by_cases h2 : c = '>'
    · subst h2; simp [angleNet, angleStep, List.count_cons]; omega
    · have e1 : (('<' : Char) == c) = false := by
        simp [beq_iff_eq]; exact fun h => h1 h.symm
      have e2 : (('>' : Char) == c) = false := by
        simp [beq_iff_eq]; exact fun h => h2 h.symm
      simp [angleNet, angleStep, List.count_cons, h1, h2, e1, e2]

/-- Python `current.split(' where ')[0]`: the prefix before the first
occurrence of the separator (the whole string when the separator is absent). -/
def splitWhereFirst : List Char → List Char
  | [] => []
  | c :: rest =>
    if " where ".toList <+: (c :: rest) then []
    else c :: splitWhereFirst rest

/-- Base-list splitting loop of `_parse_file` (source lines 490-507): split
the raw base-list on commas at angle-bracket depth zero; a stripped non-final
fragment is appended unless empty or exactly `where`; the final fragment is
appended unless empty or starting with `where`, truncated at its first
` where ` occurrence and stripped. -/
def splitBasesGo : List Char → Int → List Char → List (List Char) → List (List Char)
  | [], _, current, bases =>
    if pyStrip current ≠ [] ∧ ¬ ("where".toList <+: pyStrip current) then
      bases ++ [pyStrip (splitWhereFirst (pyStrip current))]
    else bases
  | ch :: rest, depth, current, bases =>
    if ch = '<' then splitBasesGo rest (depth + 1) (current ++ [ch]) bases
    else if ch = '>' then splitBasesGo rest (depth - 1) (current ++ [ch]) bases
    else if ch = ',' ∧ depth = 0 then
      splitBasesGo rest depth []
        (if pyStrip current ≠ [] ∧ pyStrip current ≠ "where".toList then
          bases ++ [pyStrip current] else bases)
    else splitBasesGo rest depth (current ++ [ch]) bases

/-- The base-name list computed for a type declaration's raw base-list string
(source lines 489-507). -/
def splitBases (bases_raw : List Char) : List (List Char) :=
  splitBasesGo bases_raw 0 [] []

/-- All top-level comma-separated fragments of a base list (stripped, empty
fragments retained), tracking angle-bracket depth exactly as the source loop
does. -/
def topFragsBases : List Char → Int → List Char → List (List Char)
  | [], _, current => [pyStrip current]
  | ch :: rest, depth, current =>
    if ch = '<' then topFragsBases rest (depth + 1) (current ++ [ch])
    else if ch = '>' then topFragsBases rest (depth - 1) (current ++ [ch])
    else if ch = ',' ∧ depth = 0 then pyStrip current :: topFragsBases rest depth []
    else topFragsBases rest depth (current ++ [ch])

/-- Modelled from the amended claim: declarative characterisation of the
base-name list.  Non-final fragments are kept when non-empty and not exactly
`where`; the final fragment is kept when non-empty and not starting with
`where`, truncated at its first ` where ` clause and stripped. -/
def basesSpec (frags : List (List Char)) : List (List Char) :=
  (frags.dropLast.filter (fun c => c ≠ [] ∧ c ≠ "where".toList)) ++
    (match frags.getLast? with
     | some l =>
        if l ≠ [] ∧ ¬ ("where".toList <+: l) then
          [pyStrip (splitWhereFirst l)]
        else []
     | none => [])

theorem topFragsBases_ne_nil (cs : List Char) :
    ∀ (d : Int) (current : List Char), topFragsBases cs d current ≠ [] := by
  induction cs with
  | nil => intro d current; simp [topFragsBases]
  | cons ch rest ih =>
    intro d current
    by_cases h1 : ch = '<'
    · simp only [topFragsBases, if_pos h1]; exact ih _ _
    · by_cases h2 : ch = '>'
      · simp only [topFragsBases, if_neg h1, if_pos h2]; exact ih _ _
      · by_cases h3 : ch = ',' ∧ d = 0
        · simp [topFragsBases, if_neg h1, if_neg h2, if_pos h3]
        · simp only [topFragsBases, if_neg h1, if_neg h2, if_neg h3]; exact ih _ _

theorem basesSpec_cons_of_ne_nil (x : List Char) {frags : List (List Char)}
    (h : frags ≠ []) :
    basesSpec (x :: frags) =
      (if x ≠ [] ∧ x ≠ "where".toList then [x] else []) ++ basesSpec frags := by
  obtain ⟨f, fs, rfl⟩ := List.exists_cons_of_ne_nil h
  by_cases hx1 : x = []
  · simp [basesSpec, List.dropLast_cons₂, List.filter_cons,
      List.getLast?_cons_cons, hx1]
  · by_cases hx2 : x = ['w', 'h', 'e', 'r', 'e']
    · simp [basesSpec, List.dropLast_cons₂, List.filter_cons,
        List.getLast?_cons_cons, hx1, hx2]
    · have hx2' : ¬ x = "where".toList := hx2
      simp [basesSpec, List.dropLast_cons₂, List.filter_cons,
        List.getLast?_cons_cons, hx1, hx2, hx2']

theorem splitBasesGo_eq (cs : List Char) :
    ∀ (d : Int) (current : List Char) (bases : List (List Char)),
      splitBasesGo cs d current bases =
        bases ++ basesSpec (topFragsBases cs d current) := by
  induction cs with
  | nil =>
    intro d current bases
    by_cases hs1 : pyStrip current = []
    · simp [splitBasesGo, topFragsBases, basesSpec, hs1]
    · by_cases hs2 : ['w', 'h', 'e', 'r', 'e'] <+: pyStrip current
      · have hs2' : "where".toList <+: pyStrip current := hs2
        simp [splitBasesGo, topFragsBases, basesSpec, hs1, hs2, hs2']
      · have hs2' : ¬ "where".toList <+: pyStrip current := hs2
        simp [splitBasesGo, topFragsBases, basesSpec, hs1, hs2, hs2']
  | cons ch rest ih =>
    intro d current bases
    by_cases h1 : ch = '<'
    · simp only [splitBasesGo, topFragsBases, if_pos h1]; exact ih _ _ _
    · by_cases h2 : ch = '>'
      · simp only [splitBasesGo, topFragsBases, if_neg h1, if_pos h2]
        exact ih _ _ _
      · by_cases h3 : ch = ',' ∧ d = 0
        · simp only [splitBasesGo, topFragsBases, if_neg h1, if_neg h2, if_pos h3]
          rw [ih, basesSpec_cons_of_ne_nil _ (topFragsBases_ne_nil rest d [])]
          by_cases hc1 : pyStrip current = []
          · simp [hc1]
          · by_cases hc2 : pyStrip current = ['w', 'h', 'e', 'r', 'e']
            · have hc2' : pyStrip current = "where".toList := hc2
              simp [hc1, hc2, hc2']
            · have hc2' : ¬ pyStrip current = "where".toList := hc2
              simp [hc1, hc2, hc2', List.append_assoc]
        · simp only [splitBasesGo, topFragsBases, if_neg h1, if_neg h2, if_neg h3]
          exact ih _ _ _

theorem topFragsBases_no_comma (cs : List Char) :
    ∀ (d : Int) (cur : List Char),
      (∀ i (h : i < cs.length), cs.get ⟨i, h⟩ = ',' → d + angleNet (cs.take i) ≠ 0) →
      topFragsBases cs d cur = [pyStrip (cur ++ cs)] := by
  induction cs with
  | nil => intro d cur _; simp [topFragsBases]
  | cons ch rest ih =>
    intro d cur h
    by_cases h1 : ch = '<'
    · have hstep : angleStep ch = 1 := by simp [angleStep, h1]
      simp only [topFragsBases, if_pos h1]
      rw [ih (d + 1) (cur ++ [ch]) ?_]
      · simp
      · intro i hi hc
        have := h (i + 1) (by simp only [List.length_cons]; omega)
          (by simpa using hc)
        rw [List.take_succ_cons, angleNet_cons, hstep] at this
        omega
    · by_cases h2 : ch = '>'
      · have hstep : angleStep ch = -1 := by simp [angleStep, h1, h2]
        simp only [topFragsBases, if_neg h1, if_pos h2]
        rw [ih (d - 1) (cur ++ [ch]) ?_]
        · simp
        · intro i hi hc
          have := h (i + 1) (by simp only [List.length_cons]; omega)
            (by simpa using hc)
          rw [List.take_succ_cons, angleNet_cons, hstep] at this
          omega
      · by_cases h3 : ch = ',' ∧ d = 0
        · exfalso
          have := h 0 (by simp) (by simpa using h3.1)
          rw [List.take_zero, angleNet_nil] at this
          omega
        · have hstep : angleStep ch = 0 := by simp [angleStep, h1, h2]
          simp only [topFragsBases, if_neg h1, if_neg h2, if_neg h3]
          rw [ih d (cur ++ [ch]) ?_]
          · simp
          · intro i hi hc
            have := h (i + 1) (by simp only [List.length_cons]; omega)
              (by simpa using hc)
            rw [List.take_succ_cons, angleNet_cons, hstep] at this
            omega

/-- C3 counterexample: on the raw base list `A where T : I1, I2` (one base
class with a two-entry constraint clause) the recorded base names are
`A where T : I1` and `I2` — constraint text introduced by `where` appears
inside the first recorded base name, so the claimed truncation fails. -/
theorem C3_base_list_counterexample :
    splitBases ("A where T : I1, I2".toList) =
      ["A where T : I1".toList, "I2".toList] ∧
    ∃ b ∈ splitBases ("A where T : I1, I2".toList),
      containsSub "where".toList b = true := by
  refine ⟨by decide, "A where T : I1".toList, by decide, by decide⟩

/-- C3 (amended): splitting the raw base-list produces exactly one candidate
per top-level comma-separated entry (commas at positive angle-bracket depth
never fragment an entry), where a non-final entry is recorded unless it strips
to empty or to exactly `where`, and only the final entry is truncated at its
first ` where ` clause (and dropped when it starts with `where`); consequently,
when every comma lies inside angle brackets the whole string yields at most
one base name, but a trailing constraint clause containing a top-level comma
leaks constraint text into a non-final recorded base name. -/
theorem C3_base_list_amended (bases_raw : List Char) :
    splitBases bases_raw = basesSpec (topFragsBases bases_raw 0 []) ∧
    ((∀ i (h : i < bases_raw.length),
        bases_raw.get ⟨i, h⟩ = ',' → angleNet (bases_raw.take i) ≠ 0) →
      splitBases bases_raw = basesSpec [pyStrip bases_raw]) := by
  constructor
  · rw [splitBases, splitBasesGo_eq]
    simp
  · intro hcomma
    rw [splitBases, splitBasesGo_eq, topFragsBases_no_comma bases_raw 0 []
      (by intro i hi hc; have := hcomma i hi hc; omega)]
    simp

theorem C3_base_list_amended_witness :
    splitBases ("IDict<K, V>".toList) =
      basesSpec [pyStrip ("IDict<K, V>".toList)] :=
  (C3_base_list_amended _).2 (by decide)

/-- One match of the attribute-capture shape `\[NAME\(\s*"([^"]+)"\s*\)\]`
(the `_RE_HEADER` and `_RE_TOOLTIP` patterns, source lines 182-183) at the
head of the text, returning the capture group.  Every quantifier here is
deterministic: each `\s*` is followed by a non-space literal and `[^"]+`
cannot contain the closing quote. -/
def attrCaptureAt (opener : List Char) (cs : List Char) : Option (List Char) :=
  if opener <+: cs then
    match (cs.drop opener.length).dropWhile pyIsSpace with
    | '"' :: r2 =>
      match r2.takeWhile (fun c => !(c == '"')) with
      | [] => none
      | content =>
        match r2.drop content.length with
        | '"' :: r3 =>
          match r3.dropWhile pyIsSpace with
          | ')' :: ']' :: _ => some content
          | _ => none
        | _ => none
    | _ => none
  else none

/-- `re.search`: result of the matcher at the leftmost succeeding position. -/
def searchFirst {α : Type} (f : List Char → Option α) : List Char → Option α
  | [] => f []
  | c :: rest =>
    match f (c :: rest) with
    | some x => some x
    | none => searchFirst f rest

/-- `_RE_HEADER.search(attrs)` returning the captured header text. -/
def headerTextOf (attrs : List Char) : Option (List Char) :=
  searchFirst (attrCaptureAt ("[Header(".toList)) attrs

/-- `_RE_TOOLTIP.search(attrs)` returning the captured tooltip text. -/
def tooltipTextOf (attrs : List Char) : Option (List Char) :=
  searchFirst (attrCaptureAt ("[Tooltip(".toList)) attrs

/-- `_RE_SERIALIZE_FIELD.search(attrs)` (source line 181): the pattern is the
literal `[SerializeField]`, so the search is substring containment. -/
def hasSerializeAttr (attrs : List Char) : Bool :=
  containsSub "[SerializeField]".toList attrs

/-- The regex groups of one `_RE_FIELD` match (source lines 143-154). -/
structure FieldMatch where
  attrs : List Char
  access : List Char
  is_static : Bool
  is_const : Bool
  is_readonly : Bool
  type_str : List Char
  name : List Char
  default_val : Option (List Char)
deriving DecidableEq

/-- The `FieldInfo` dataclass (source lines 48-59). -/
structure FieldInfo where
  name : List Char
  type_name : List Char
  access : List Char
  is_static : Bool
  is_readonly : Bool
  is_const : Bool
  is_serialized : Bool
  default_value : Option (List Char)
  header_group : Option (List Char)
  tooltip : Option (List Char)
deriving DecidableEq

/-- Reserved-word type tokens excluded as misparse guards (source line 534). -/
def reservedFieldTypes : List (List Char) :=
  ["return".toList, "yield".toList, "var".toList, "throw".toList, "new".toList]

/-- Field inclusion policy (source lines 544-550): public, or serialized, or
const at public/internal visibility, or static readonly at public/internal
visibility. -/
def shouldIncludeField (m : FieldMatch) : Prop :=
  m.access = "public".toList ∨ hasSerializeAttr m.attrs = true ∨
  (m.is_const = true ∧ (m.access = "public".toList ∨ m.access = "internal".toList)) ∨
  (m.is_static = true ∧ m.is_readonly = true ∧
    (m.access = "public".toList ∨ m.access = "internal".toList))

instance shouldIncludeFieldDec (m : FieldMatch) : Decidable (shouldIncludeField m) := by
  unfold shouldIncludeField
  infer_instance

/-- The FieldInfo built for an included candidate (source lines 554-565);
`hdr` is the `current_header` value after this candidate's own attributes
were examined. -/
def mkFieldInfo (m : FieldMatch) (hdr : Option (List Char)) : FieldInfo :=
  ⟨m.name, pyStrip m.type_str, m.access, m.is_static, m.is_readonly, m.is_const,
    hasSerializeAttr m.attrs, m.default_val,
    if hasSerializeAttr m.attrs then hdr else none,
    if hasSerializeAttr m.attrs then tooltipTextOf m.attrs else none⟩

/-- `current_header` update from one candidate (source lines 538-540): the
first `[Header("...")]` found in the candidate's attributes replaces the
current value; otherwise the value persists. -/
def headerUpd (hdr : Option (List Char)) (m : FieldMatch) : Option (List Char) :=
  match headerTextOf m.attrs with
  | some t => some t
  | none => hdr

/-- Field-candidate loop of `_parse_file` (source lines 521-565), threading
`current_header`.  A candidate whose stripped type is a reserved keyword is
skipped before the header extraction (the `continue` on line 535); every
other candidate updates the header state; the inclusion policy decides
whether a FieldInfo is appended. -/
def process_fields : List FieldMatch → Option (List Char) → List FieldInfo
  | [], _ => []
  | m :: rest, hdr =>
    if pyStrip m.type_str ∈ reservedFieldTypes then process_fields rest hdr
    else
      if shouldIncludeField m then
        mkFieldInfo m (headerUpd hdr m) :: process_fields rest (headerUpd hdr m)
      else process_fields rest (headerUpd hdr m)

/-- The `current_header` state after a list of candidates was processed. -/
def headerAfter (hdr : Option (List Char)) : List FieldMatch → Option (List Char)
  | [] => hdr
  | m :: rest =>
    headerAfter
      (if pyStrip m.type_str ∈ reservedFieldTypes then hdr else headerUpd hdr m)
      rest

theorem headerAfter_append (xs ys : List FieldMatch) (hdr : Option (List Char)) :
    headerAfter hdr (xs ++ ys) = headerAfter (headerAfter hdr xs) ys := by
  induction xs generalizing hdr with
  | nil => simp [headerAfter]
  | cons m rest ih =>
    simp only [List.cons_append, headerAfter]
    exact ih _

theorem process_fields_append (xs ys : List FieldMatch) (hdr : Option (List Char)) :
    process_fields (xs ++ ys) hdr =
      process_fields xs hdr ++ process_fields ys (headerAfter hdr xs) := by
  induction xs generalizing hdr with
  | nil => simp [process_fields, headerAfter]
  | cons m rest ih =>
    simp only [List.cons_append, process_fields, headerAfter]
    by_cases hres : pyStrip m.type_str ∈ reservedFieldTypes
    · simp [hres, ih]
    · by_cases hinc : shouldIncludeField m
      · simp [hres, hinc, ih]
      · simp [hres, hinc, ih]

theorem headerAfter_singleton (hdr : Option (List Char)) (m : FieldMatch) :
    headerAfter hdr [m] =
      if pyStrip m.type_str ∈ reservedFieldTypes then hdr else headerUpd hdr m := by
  simp [headerAfter]

theorem shouldIncludeField_private (m : FieldMatch)
    (hpriv : m.access = "private".toList)
    (hser : hasSerializeAttr m.attrs = false) : ¬ shouldIncludeField m := by
  intro h
  rcases h with h | h | ⟨_, h2 | h2⟩ | ⟨_, _, h2 | h2⟩
  · rw [hpriv] at h; exact absurd h (by decide)
  · rw [hser] at h; exact absurd h (by decide)
  · rw [hpriv] at h2; exact absurd h2 (by decide)
  · rw [hpriv] at h2; exact absurd h2 (by decide)
  · rw [hpriv] at h2; exact absurd h2 (by decide)
  · rw [hpriv] at h2; exact absurd h2 (by decide)

/-- C4: a field candidate parsed with private visibility and no
`[SerializeField]` annotation contributes no FieldInfo to the field list,
wherever it occurs in the type body (its Header attribute may still update the
grouping state); a private candidate carrying the annotation — with a type
that is not a reserved misparse-guard keyword — contributes exactly one
FieldInfo, whose serialized flag is true. -/
theorem C4_private_field_policy (ms1 ms2 : List FieldMatch) (m : FieldMatch)
    (h0 : Option (List Char)) (hpriv : m.access = "private".toList) :
    (hasSerializeAttr m.attrs = false →
      process_fields (ms1 ++ m :: ms2) h0 =
        process_fields ms1 h0 ++
          process_fields ms2 (headerAfter h0 (ms1 ++ [m]))) ∧
    (hasSerializeAttr m.attrs = true →
      pyStrip m.type_str ∉ reservedFieldTypes →
      (process_fields (ms1 ++ m :: ms2) h0 =
        process_fields ms1 h0 ++
          mkFieldInfo m (headerAfter h0 (ms1 ++ [m])) ::
            process_fields ms2 (headerAfter h0 (ms1 ++ [m])) ∧
      (mkFieldInfo m (headerAfter h0 (ms1 ++ [m]))).is_serialized = true)) := by
  have hsplit := process_fields_append ms1 (m :: ms2) h0
  have hA : headerAfter h0 (ms1 ++ [m]) =
      if pyStrip m.type_str ∈ reservedFieldTypes then headerAfter h0 ms1
      else headerUpd (headerAfter h0 ms1) m := by
    rw [headerAfter_append, headerAfter_singleton]
  constructor
  · intro hser
    rw [hsplit, hA]
    by_cases hres : pyStrip m.type_str ∈ reservedFieldTypes
    · simp [process_fields, hres]
    · simp [process_fields, hres, shouldIncludeField_private m hpriv hser]
  · intro hser hres
    have hinc : shouldIncludeField m := Or.inr (Or.inl hser)
    constructor
    · rw [hsplit, hA]
      simp [process_fields, hres, hinc]
    · simp [mkFieldInfo, hser]

theorem C4_private_field_policy_witness :
    process_fields
      [⟨[], "private".toList, false, false, false, "int".toList, "x".toList, none⟩]
      none = [] ∧
    process_fields
      [⟨"[SerializeField]".toList, "private".toList, false, false, false,
        "int".toList, "y".toList, none⟩] none =
      [mkFieldInfo
        ⟨"[SerializeField]".toList, "private".toList, false, false, false,
          "int".toList, "y".toList, none⟩ none] ∧
    (mkFieldInfo
      ⟨"[SerializeField]".toList, "private".toList, false, false, false,
        "int".toList, "y".toList, none⟩ none).is_serialized = true := by
  have h1 := (C4_private_field_policy [] []
    ⟨[], "private".toList, false, false, false, "int".toList, "x".toList, none⟩
    none rfl).1 (by decide)
  have h2 := (C4_private_field_policy [] []
    ⟨"[SerializeField]".toList, "private".toList, false, false, false,
      "int".toList, "y".toList, none⟩
    none rfl).2 (by decide) (by decide)
  refine ⟨by simpa using h1, ?_, h2.2⟩
  have := h2.1
  simpa using this

/-- C9: an included serialized field candidate's header_group equals the
`current_header` state after all earlier-or-same candidates — each candidate
contributes the first `[Header("...")]` text of its own attribute list,
replacing the previous value, and the value persists across candidates with
no Header attribute — while an included non-serialized candidate's
header_group is None even when its own attributes contain a Header
attribute. -/
theorem C9_header_grouping (ms1 ms2 : List FieldMatch) (m : FieldMatch)
    (h0 : Option (List Char))
    (hres : pyStrip m.type_str ∉ reservedFieldTypes)
    (hinc : shouldIncludeField m) :
    process_fields (ms1 ++ m :: ms2) h0 =
      process_fields ms1 h0 ++
        mkFieldInfo m (headerAfter h0 (ms1 ++ [m])) ::
          process_fields ms2 (headerAfter h0 (ms1 ++ [m])) ∧
    (hasSerializeAttr m.attrs = true →
      (mkFieldInfo m (headerAfter h0 (ms1 ++ [m]))).header_group =
        headerAfter h0 (ms1 ++ [m])) ∧
    (hasSerializeAttr m.attrs = false →
      (mkFieldInfo m (headerAfter h0 (ms1 ++ [m]))).header_group = none) ∧
    (∀ t, headerTextOf m.attrs = some t →
      headerAfter h0 (ms1 ++ [m]) = some t) ∧
    (headerTextOf m.attrs = none →
      headerAfter h0 (ms1 ++ [m]) = headerAfter h0 ms1) := by
  have hA : headerAfter h0 (ms1 ++ [m]) =
      if pyStrip m.type_str ∈ reservedFieldTypes then headerAfter h0 ms1
      else headerUpd (headerAfter h0 ms1) m := by
    rw [headerAfter_append, headerAfter_singleton]
  refine ⟨?_, ?_, ?_, ?_, ?_⟩
  · rw [process_fields_append, hA]
    simp [process_fields, hres, hinc]
  · intro hser; simp [mkFieldInfo, hser]
  · intro hser; simp [mkFieldInfo, hser]
  · intro t ht
    rw [hA, if_neg hres]
    simp [headerUpd, ht]
  · intro ht
    rw [hA, if_neg hres]
    simp [headerUpd, ht]

theorem C9_header_grouping_witness :
    (mkFieldInfo
      ⟨"[Header(\"Stats\")] [SerializeField]".toList, "private".toList, false,
        false, false, "int".toList, "hp".toList, none⟩
      (headerAfter none
        ([] ++ [⟨"[Header(\"Stats\")] [SerializeField]".toList,
          "private".toList, false, false, false, "int".toList, "hp".toList,
          none⟩]))).header_group = some ("Stats".toList) := by
  have h := C9_header_grouping [] []
    ⟨"[Header(\"Stats\")] [SerializeField]".toList, "private".toList, false,
      false, false, "int".toList, "hp".toList, none⟩
    none (by decide) (Or.inr (Or.inl (by decide)))
  rw [h.2.1 (by decide), h.2.2.2.1 ("Stats".toList) (by decide)]

/-- The `PropertyInfo` dataclass (source lines 61-68). -/
structure PropertyInfo where
  name : List Char
  type_name : List Char
  access : List Char
  has_getter : Bool
  has_setter : Bool
  is_static : Bool
deriving DecidableEq

/-- One match of `private\s+WORD` at the head of the text: the literal
`private`, at least one whitespace character, then the accessor keyword.
Deterministic because the keyword starts with a non-space character. -/
def privAccessorAt (word : List Char) (cs : List Char) : Bool :=
  decide ("private".toList <+: cs) &&
    decide (1 ≤ ((cs.drop 7).takeWhile pyIsSpace).length) &&
    word.isPrefixOf ((cs.drop 7).dropWhile pyIsSpace)

/-- `re.search(r'private\s+set', prop_block)` and the `get` analogue
(source lines 596-597). -/
def hasPrivAccessor (word : List Char) (cs : List Char) : Bool :=
  cs.tails.any (privAccessorAt word)

/-- Property accessor-flag computation of `_parse_file` (source lines
588-606): getter/setter presence is substring containment of `get`/`set` in
the property's brace block, and only an accessor explicitly declared
`private` clears the corresponding flag. -/
def mkPropertyInfo (prop_name type_name : List Char) (is_static : Bool)
    (prop_block : List Char) : PropertyInfo :=
  ⟨prop_name, type_name, "public".toList,
    containsSub "get".toList prop_block &&
      !(hasPrivAccessor "get".toList prop_block),
    containsSub "set".toList prop_block &&
      !(hasPrivAccessor "set".toList prop_block),
    is_static⟩

/-- C6 counterexample: for a public property whose block declares a
`protected set` accessor — a more restrictive visibility than the property
itself — the computed write-accessor flag is true, not false as the claim
requires: the code only excludes `private` accessors. -/
theorem C6_accessor_visibility_counterexample :
    (mkPropertyInfo ("Health".toList) ("int".toList) false
      ("\x7b get; protected set; \x7d".toList)).has_setter = true := by
  decide

/-- C6 (amended): an accessor explicitly declared `private` is excluded from
the public contract (the corresponding flag is false), while a present
accessor not declared `private` — including `protected` or `internal`
accessors — keeps its flag true. -/
theorem C6_accessor_visibility_amended (prop_name type_name : List Char)
    (is_static : Bool) (prop_block : List Char) :
    (hasPrivAccessor "get".toList prop_block = true →
      (mkPropertyInfo prop_name type_name is_static prop_block).has_getter = false) ∧
    (hasPrivAccessor "set".toList prop_block = true →
      (mkPropertyInfo prop_name type_name is_static prop_block).has_setter = false) ∧
    (containsSub "get".toList prop_block = true →
      hasPrivAccessor "get".toList prop_block = false →
      (mkPropertyInfo prop_name type_name is_static prop_block).has_getter = true) ∧
    (containsSub "set".toList prop_block = true →
      hasPrivAccessor "set".toList prop_block = false →
      (mkPropertyInfo prop_name type_name is_static prop_block).has_setter = true) := by
  refine ⟨?_, ?_, ?_, ?_⟩
  · intro h
    have h' : hasPrivAccessor ['g', 'e', 't'] prop_block = true := h
    simp [mkPropertyInfo, h']
  · intro h
    have h' : hasPrivAccessor ['s', 'e', 't'] prop_block = true := h
    simp [mkPropertyInfo, h']
  · intro h1 h2
    have h1' : containsSub ['g', 'e', 't'] prop_block = true := h1
    have h2' : hasPrivAccessor ['g', 'e', 't'] prop_block = false := h2
    simp [mkPropertyInfo, h1', h2']
  · intro h1 h2
    have h1' : containsSub ['s', 'e', 't'] prop_block = true := h1
    have h2' : hasPrivAccessor ['s', 'e', 't'] prop_block = false := h2
    simp [mkPropertyInfo, h1', h2']

theorem C6_accessor_visibility_amended_witness :
    (mkPropertyInfo ("Health".toList) ("int".toList) false
      ("\x7b get; private set; \x7d".toList)).has_setter = false :=
  (C6_accessor_visibility_amended ("Health".toList) ("int".toList) false
    ("\x7b get; private set; \x7d".toList)).2.1 (by decide)

/-- Removal step for a literal pattern (a regex with no metacharacters). -/
def litStep (lit : List Char) (cs : List Char) : Option Nat :=
  if lit <+: cs then some lit.length else none

/-- Removal step for `</?TAG>`: the optional slash is greedy, so the variant
with the slash is tried first. -/
def closedTagStep (tag : List Char) (cs : List Char) : Option Nat :=
  if ("</".toList ++ tag ++ ">".toList) <+: cs then some (tag.length + 3)
  else if ("<".toList ++ tag ++ ">".toList) <+: cs then some (tag.length + 2)
  else none

/-- Removal step for `/\*\*?`: the optional second star is greedy. -/
def blockOpenStep (cs : List Char) : Option Nat :=
  if "/**".toList <+: cs then some 3
  else if "/*".toList <+: cs then some 2
  else none

/-- Removal step for `<param\s+name="[^"]*">` (source line 399):
deterministic because `\s+` is followed by the letter `n` and `[^"]*` cannot
contain the closing quote. -/
def paramOpenStep (cs : List Char) : Option Nat :=
  if "<param".toList <+: cs then
    (let r := cs.drop 6
     let w := (r.takeWhile pyIsSpace).length
     if w = 0 then none
     else if "name=\"".toList <+: r.drop w then
       (let content := ((r.drop w).drop 6).takeWhile (fun c => !(c == '"'))
        match ((r.drop w).drop 6).drop content.length with
        | '"' :: '>' :: _ => some (6 + w + 6 + content.length + 2)
        | _ => none)
     else none)
  else none

/-- The tag-stripping chain applied to one `///` line's content
(source lines 396-401): summary, remarks, param-open, param-close, returns,
each substitution followed by a strip. -/
def stripDocTags (content : List Char) : List Char :=
  let c1 := pyStrip (scanRemove (closedTagStep "summary".toList) content.length content)
  let c2 := pyStrip (scanRemove (closedTagStep "remarks".toList) c1.length c1)
  let c3 := pyStrip (scanRemove paramOpenStep c2.length c2)
  let c4 := pyStrip (scanRemove (litStep "</param>".toList) c3.length c3)
  pyStrip (scanRemove (closedTagStep "returns".toList) c4.length c4)

/-- Python `str.strip('* ')`. -/
def pyStripChars (cs : List Char) : List Char :=
  ((cs.dropWhile (fun c => c == '*' || c == ' ')).reverse.dropWhile
    (fun c => c == '*' || c == ' ')).reverse

/-- Python `s.split('\n')` (source line 371). -/
def splitOnNl : List Char → List (List Char)
  | [] => [[]]
  | c :: rest =>
    if c = '\n' then [] :: splitOnNl rest
    else
      match splitOnNl rest with
      | l :: ls => (c :: l) :: ls
      | [] => [[c]]

/-- Python `' '.join(xs)`. -/
def joinSpace (xs : List (List Char)) : List Char :=
  List.intercalate [' '] xs

/-- Inner block-comment collection loop of `_extract_doc_for_member`
(source lines 407-414), walking upward.  The index is shifted by one:
argument `i+1` examines line index `i`, `0` is the `i < 0` exit.  Each line
is stripped and prepended; a line containing the block opener stops the
walk. -/
def collectBlockLines (lines : List (List Char)) :
    Nat → List (List Char) → List (List Char)
  | 0, acc => acc
  | i + 1, acc =>
    let line_text := pyStrip ((lines.get? i).getD [])
    if containsSub "/*".toList line_text then line_text :: acc
    else collectBlockLines lines i (line_text :: acc)

/-- Block-comment text normalisation (source lines 415-419): join with
spaces, remove `/**` and `/*` markers, remove `*/` markers, strip, strip
stars and blanks, strip. -/
def blockTextOf (block_lines : List (List Char)) : List Char :=
  let t0 := joinSpace block_lines
  let t1 := scanRemove blockOpenStep t0.length t0
  let t2 := scanRemove (litStep "*/".toList) t1.length t1
  pyStrip (pyStripChars (pyStrip t2))

/-- Backward documentation walk of `_extract_doc_for_member` (source lines
379-424).  The index is shifted by one: `walkUp lines (i+1) doc` examines
line index `i` and `walkUp lines 0 doc` is the `i < 0` exit.  Blank lines
stop the walk once documentation was collected and are skipped before;
attribute lines are skipped; `///` lines accumulate their cleaned content at
the front; a line containing a block-comment close collects the whole block
and stops; any other line stops the walk. -/
def walkUp (lines : List (List Char)) : Nat → List (List Char) → List (List Char)
  | 0, doc_lines => doc_lines
  | i + 1, doc_lines =>
    let stripped := pyStrip ((lines.get? i).getD [])
    if stripped = [] then
      (if doc_lines ≠ [] then doc_lines else walkUp lines i doc_lines)
    else if stripped.head? = some '[' ∧ stripped.getLast? = some ']' then
      walkUp lines i doc_lines
    else if "///".toList <+: stripped then
      (let content := stripDocTags (pyStrip (stripped.drop 3))
       walkUp lines i (if content ≠ [] then content :: doc_lines else doc_lines))
    else if containsSub "*/".toList stripped then
      (let block_text := blockTextOf (collectBlockLines lines (i + 1) [])
       if block_text ≠ [] then block_text :: doc_lines else doc_lines)
    else doc_lines

/-- Boundary test for the regex `\b`: true when exactly one side is a word
character (an absent side counts as non-word). -/
def isWordBoundary (a b : Option Char) : Bool :=
  (match a with | some c => isWordChar c | none => false) !=
    (match b with | some c => isWordChar c | none => false)

/-- Lazy search for `[^;\n]*?\bNAME\b` (the tail of the declaration pattern
of `_extract_doc_for_member`, source lines 364-369): positions are tried left
to right; the gap may contain neither `;` nor a newline; the name must sit
between word boundaries.  `prev` is the character immediately before the
current position.  Returns the consumed length through the end of the name. -/
def findNameLazy (nm : List Char) : List Char → Char → Option Nat
  | [], prev =>
    if isWordBoundary (some prev) nm.head? && nm.isPrefixOf ([] : List Char) &&
        isWordBoundary nm.getLast? none then
      some nm.length
    else none
  | c :: rest, prev =>
    if isWordBoundary (some prev) nm.head? && nm.isPrefixOf (c :: rest) &&
        isWordBoundary nm.getLast? ((c :: rest).drop nm.length).head? then
      some nm.length
    else if c = ';' ∨ c = '\n' then none
    else
      match findNameLazy nm rest c with
      | some n => some (n + 1)
      | none => none

/-- Backtracking over the greedy `\s+` before the declaration body: the
longest whitespace run is tried first, then progressively shorter ones; each
attempt searches the name lazily to its right. -/
def tryWsRun (nm : List Char) (cs : List Char) : Nat → Option Nat
  | 0 => none
  | w + 1 =>
    match cs.drop w with
    | p :: rest =>
      (match findNameLazy nm rest p with
       | some n => some (w + 1 + n)
       | none => tryWsRun nm cs w)
    | [] => tryWsRun nm cs w

/-- Match `\s+[^;\n]*?\bNAME\b` (the part after the visibility keyword). -/
def matchWsBody (nm : List Char) (cs : List Char) : Option Nat :=
  tryWsRun nm cs (cs.takeWhile pyIsSpace).length

/-- The visibility keywords in the pattern's alternation order.  No keyword
is a prefix of another, so at most one can match at a given position. -/
def visKeywords : List (List Char) :=
  ["public".toList, "private".toList, "protected".toList, "internal".toList]

def matchKeywordGo (nm : List Char) (cs : List Char) : List (List Char) → Option Nat
  | [] => none
  | kw :: kws =>
    if kw <+: cs then
      match matchWsBody nm (cs.drop kw.length) with
      | some n => some (kw.length + n)
      | none => matchKeywordGo nm cs kws
    else matchKeywordGo nm cs kws

/-- Match `(?:public|private|protected|internal)\s+[^;\n]*?\bNAME\b`. -/
def matchKeyword (nm : List Char) (cs : List Char) : Option Nat :=
  matchKeywordGo nm cs visKeywords

/-- Candidate closing positions for one lazy `\[.*?\]` group: the indices of
`]` on the same line (the dot does not match a newline), in increasing order
— the lazy quantifier tries the nearest close first and extends on failure. -/
def closeCandidates (rest : List Char) : List Nat :=
  (List.range (rest.takeWhile (fun c => !(c == '\n'))).length).filter
    (fun j => rest.get? j = some ']')

/-- Match `(?:\[.*?\]\s*)*(?:public|...)\s+[^;\n]*?\bNAME\b` with the
backtracking order of the Python engine: the greedy star prefers one more
attribute group (trying each candidate close, nearest first) and falls back
to matching the keyword at the current position.  The fuel bounds the
recursion depth; one group always consumes at least two characters, so a fuel
of the text length is sufficient. -/
def matchAttrsThenKw (nm : List Char) (fuel : Nat) (cs : List Char) : Option Nat :=
  match fuel with
  | 0 => none
  | fuel' + 1 =>
    match cs with
    | '[' :: rest =>
      (match (closeCandidates rest).findSome? (fun j =>
          (matchAttrsThenKw nm fuel'
              ((rest.drop (j + 1)).dropWhile pyIsSpace)).map
            (fun n =>
              1 + (j + 1) + ((rest.drop (j + 1)).takeWhile pyIsSpace).length + n)) with
       | some n => some n
       | none => matchKeyword nm cs)
    | _ => matchKeyword nm cs
termination_by fuel

/-- One attempted match of the full declaration pattern
`^[ \t]*(?:\[.*?\]\s*)*(?:public|private|protected|internal)\s+[^;\n]*?\bNAME\b`
(source lines 364-369) at a line start, returning the match length.  The
leading `[ \t]*` is deterministic because neither an attribute group nor a
keyword starts with a blank. -/
def matchDeclLen (nm : List Char) (cs : List Char) : Option Nat :=
  (matchAttrsThenKw nm (cs.length + 1)
      (cs.drop (cs.takeWhile (fun c => c == ' ' || c == '\t')).length)).map
    (fun n => n + (cs.takeWhile (fun c => c == ' ' || c == '\t')).length)

/-- Whether position `p` is a line start (`^` under `re.MULTILINE`). -/
def isLineStart (src : List Char) (p : Nat) : Prop :=
  p = 0 ∨ src.get? (p - 1) = some '\n'

instance isLineStartDec (src : List Char) (p : Nat) : Decidable (isLineStart src p) := by
  unfold isLineStart; infer_instance

/-- `decl_pattern.finditer(raw_src)` (source line 373): scan left to right;
matches can start only at line starts; after a match the scan resumes at the
match end (matches never overlap).  Returns the match start positions in
document order. -/
def findDeclGo (src nm : List Char) : Nat → Nat → List Nat
  | 0, _ => []
  | fuel + 1, p =>
    if p < src.length then
      if isLineStart src p then
        match matchDeclLen nm (src.drop p) with
        | some len => p :: findDeclGo src nm fuel (p + len)
        | none => findDeclGo src nm fuel (p + 1)
      else findDeclGo src nm fuel (p + 1)
    else []

def findDeclMatches (src nm : List Char) : List Nat :=
  findDeclGo src nm (src.length + 1) 0

/-- Documentation collected for the declaration whose match starts at `p`:
the line number is the newline count before the match start (source line
375), and the backward walk starts on the line above. -/
def docAtMatch (src : List Char) (p : Nat) : Option (List Char) :=
  match walkUp (splitOnNl src) ((src.take p).count '\n') [] with
  | [] => none
  | doc_lines => some (joinSpace doc_lines)

/-- Loop over the ordered declaration matches (source lines 373-429): the
first declaration with any collected documentation wins; `None` if none
has documentation. -/
def docLoop (src : List Char) : List Nat → Option (List Char)
  | [] => none
  | p :: rest =>
    match docAtMatch src p with
    | some d => some d
    | none => docLoop src rest

/-- `_extract_doc_for_member(raw_src, member_name)` (source lines 357-429). -/
def extract_doc_for_member (src nm : List Char) : Option (List Char) :=
  docLoop src (findDeclMatches src nm)

theorem docLoop_characterization (src : List Char) :
    ∀ (L : List Nat) (d : List Char), docLoop src L = some d →
      ∃ l₁ p l₂, L = l₁ ++ p :: l₂ ∧ docAtMatch src p = some d ∧
        ∀ q ∈ l₁, docAtMatch src q = none := by
  intro L
  induction L with
  | nil => intro d h; simp [docLoop] at h
  | cons p rest ih =>
    intro d h
    simp only [docLoop] at h
    cases hp : docAtMatch src p with
    | some d' =>
      rw [hp] at h
      refine ⟨[], p, rest, rfl, ?_, by simp⟩
      rw [hp]
      exact h
    | none =>
      rw [hp] at h
      obtain ⟨l₁, q, l₂, hL, hq, hall⟩ := ih d h
      refine ⟨p :: l₁, q, l₂, by rw [hL, List.cons_append], hq, ?_⟩
      intro x hx
      rcases List.mem_cons.mp hx with hx | hx
      · rw [hx]; exact hp
      · exact hall x hx

/-- The regex groups of one `_RE_METHOD` match (source lines 165-179). -/
structure MethodMatch where
  attrs : List Char
  access : List Char
  is_static : Bool
  is_virtual : Bool
  is_override : Bool
  is_abstract : Bool
  is_async : Bool
  return_str : List Char
  name : List Char
  params : List Char
deriving DecidableEq

/-- The `MethodInfo` dataclass (source lines 76-88). -/
structure MethodInfo where
  name : List Char
  return_type : List Char
  access : List Char
  parameters : List ParameterInfo
  is_static : Bool
  is_virtual : Bool
  is_override : Bool
  is_abstract : Bool
  is_async : Bool
  is_coroutine : Bool
  doc_summary : Option (List Char)
deriving DecidableEq

/-- The MethodInfo appended for an included method (source lines 624-639):
the return type is stripped, the coroutine flag is literal string equality
with the iterator-protocol marker `IEnumerator`, the parameters come from the
Parameter Splitter, and documentation is resolved from the original source by
bare member name. -/
def mkMethodInfo (raw_src : List Char) (m : MethodMatch) : MethodInfo :=
  ⟨m.name, pyStrip m.return_str, m.access, parse_parameters m.params,
    m.is_static, m.is_virtual, m.is_override, m.is_abstract, m.is_async,
    decide (pyStrip m.return_str = "IEnumerator".toList),
    extract_doc_for_member raw_src m.name⟩

/-- Method visibility filter of `_parse_file` (source lines 617-622), the
three sequential `continue` guards combined: private methods are skipped;
internal or protected methods are skipped unless flagged virtual, override
or abstract. -/
def methodIncluded (m : MethodMatch) : Prop :=
  ¬ (m.access = "private".toList) ∧
  ¬ (m.access = "internal".toList ∧
      ¬ (m.is_virtual = true ∨ m.is_override = true ∨ m.is_abstract = true)) ∧
  ¬ (m.access = "protected".toList ∧
      ¬ (m.is_virtual = true ∨ m.is_override = true ∨ m.is_abstract = true))

instance methodIncludedDec (m : MethodMatch) : Decidable (methodIncluded m) := by
  unfold methodIncluded; infer_instance

/-- Method loop of `_parse_file` (source lines 609-639). -/
def process_methods (raw_src : List Char) : List MethodMatch → List MethodInfo
  | [] => []
  | m :: rest =>
    if methodIncluded m then
      mkMethodInfo raw_src m :: process_methods raw_src rest
    else process_methods raw_src rest

theorem mem_process_methods (raw_src : List Char) (ms : List MethodMatch)
    (mi : MethodInfo) :
    mi ∈ process_methods raw_src ms ↔
      ∃ m, m ∈ ms ∧ methodIncluded m ∧ mi = mkMethodInfo raw_src m := by
  induction ms with
  | nil => simp [process_methods]
  | cons m rest ih =>
    by_cases h : methodIncluded m
    · simp only [process_methods, if_pos h, List.mem_cons, ih]
      constructor
      · rintro (rfl | ⟨x, hx, hinc, rfl⟩)
        · exact ⟨m, Or.inl rfl, h, rfl⟩
        · exact ⟨x, Or.inr hx, hinc, rfl⟩
      · rintro ⟨x, (rfl | hx), hinc, rfl⟩
        · exact Or.inl rfl
        · exact Or.inr ⟨x, hx, hinc, rfl⟩
    · simp only [process_methods, if_neg h, List.mem_cons, ih]
      constructor
      · rintro ⟨x, hx, hinc, rfl⟩
        exact ⟨x, Or.inr hx, hinc, rfl⟩
      · rintro ⟨x, (rfl | hx), hinc, rfl⟩
        · exact absurd hinc h
        · exact ⟨x, hx, hinc, rfl⟩

theorem mkMethodInfo_access (raw_src : List Char) (m : MethodMatch) :
    (mkMethodInfo raw_src m).access = m.access := rfl

theorem mkMethodInfo_flags (raw_src : List Char) {m m' : MethodMatch}
    (h : mkMethodInfo raw_src m = mkMethodInfo raw_src m') :
    m.access = m'.access ∧ m.is_virtual = m'.is_virtual ∧
    m.is_override = m'.is_override ∧ m.is_abstract = m'.is_abstract := by
  refine ⟨congrArg MethodInfo.access h, congrArg MethodInfo.is_virtual h,
    congrArg MethodInfo.is_override h, congrArg MethodInfo.is_abstract h⟩

/-- C5: the extracted method list never contains a method whose parsed
visibility is private; a protected or internal method's entry appears in the
list iff the method is flagged virtual, override or abstract; a public
method's entry always appears. -/
theorem C5_method_visibility (raw_src : List Char) (ms : List MethodMatch) :
    (∀ mi ∈ process_methods raw_src ms, mi.access ≠ "private".toList) ∧
    (∀ m ∈ ms, (m.access = "protected".toList ∨ m.access = "internal".toList) →
      (mkMethodInfo raw_src m ∈ process_methods raw_src ms ↔
        (m.is_virtual = true ∨ m.is_override = true ∨ m.is_abstract = true))) ∧
    (∀ m ∈ ms, m.access = "public".toList →
      mkMethodInfo raw_src m ∈ process_methods raw_src ms) := by
  refine ⟨?_, ?_, ?_⟩
  · intro mi hmi
    obtain ⟨m, _, hinc, rfl⟩ := (mem_process_methods raw_src ms mi).mp hmi
    rw [mkMethodInfo_access]
    exact hinc.1
  · intro m hm hacc
    constructor
    · intro hmem
      obtain ⟨m', hm', hinc', heq⟩ :=
        (mem_process_methods raw_src ms (mkMethodInfo raw_src m)).mp hmem
      obtain ⟨ha, hv, ho, hb⟩ := mkMethodInfo_flags raw_src heq
      rcases hacc with h | h
      · have := hinc'.2.2
        rw [← ha, h] at this
        rw [hv, ho, hb]
        by_contra hf
        exact this ⟨rfl, hf⟩
      · have := hinc'.2.1
        rw [← ha, h] at this
        rw [hv, ho, hb]
        by_contra hf
        exact this ⟨rfl, hf⟩
    · intro hflags
      have hnp : ¬ (m.access = "private".toList) := by
        rcases hacc with h | h <;> rw [h] <;> decide
      exact (mem_process_methods raw_src ms (mkMethodInfo raw_src m)).mpr
        ⟨m, hm, ⟨hnp, fun hi => hi.2 hflags, fun hp => hp.2 hflags⟩, rfl⟩
  · intro m hm hpub
    have hinc : methodIncluded m := by
      refine ⟨by rw [hpub]; decide, ?_, ?_⟩
      · rintro ⟨hi, _⟩; rw [hpub] at hi; exact absurd hi (by decide)
      · rintro ⟨hp, _⟩; rw [hpub] at hp; exact absurd hp (by decide)
    exact (mem_process_methods raw_src ms (mkMethodInfo raw_src m)).mpr
      ⟨m, hm, hinc, rfl⟩

theorem C5_method_visibility_witness :
    mkMethodInfo []
      ⟨[], "public".toList, false, false, false, false, false,
        "void".toList, "Go".toList, []⟩ ∈
    process_methods []
      [⟨[], "private".toList, false, false, false, false, false,
        "void".toList, "Hide".toList, []⟩,
       ⟨[], "public".toList, false, false, false, false, false,
        "void".toList, "Go".toList, []⟩] :=
  (C5_method_visibility []
    [⟨[], "private".toList, false, false, false, false, false,
      "void".toList, "Hide".toList, []⟩,
     ⟨[], "public".toList, false, false, false, false, false,
      "void".toList, "Go".toList, []⟩]).2.2
    ⟨[], "public".toList, false, false, false, false, false,
      "void".toList, "Go".toList, []⟩
    (by simp) rfl

theorem docLoop_none (src : List Char) :
    ∀ L : List Nat, docLoop src L = none → ∀ p ∈ L, docAtMatch src p = none := by
  intro L
  induction L with
  | nil => intro _ p hp; simp at hp
  | cons q rest ih =>
    intro h p hp
    simp only [docLoop] at h
    cases hq : docAtMatch src q with
    | some d => rw [hq] at h; exact absurd h (by simp)
    | none =>
      rw [hq] at h
      rcases List.mem_cons.mp hp with rfl | hp'
      · exact hq
      · exact ih h p hp'

/-- C10: member documentation is resolved from the original file text by bare
member name: when the Doc Resolver returns a documentation string, it is the
one collected above the first declaration match (in file order) whose
backward walk finds any documentation, all earlier declaration matches having
none; when it returns nothing, no declaration match has documentation.
Consequently any two extracted methods with the same name — in particular
overloads, which are retained as separate entries — carry the identical
doc_summary, so distinct per-overload documentation cannot be represented. -/
theorem C10_doc_resolution (src nm : List Char) (ms : List MethodMatch) :
    (∀ d, extract_doc_for_member src nm = some d →
      ∃ l₁ p l₂, findDeclMatches src nm = l₁ ++ p :: l₂ ∧
        docAtMatch src p = some d ∧ ∀ q ∈ l₁, docAtMatch src q = none) ∧
    (extract_doc_for_member src nm = none →
      ∀ p ∈ findDeclMatches src nm, docAtMatch src p = none) ∧
    (∀ mi1 ∈ process_methods src ms, ∀ mi2 ∈ process_methods src ms,
      mi1.name = mi2.name → mi1.doc_summary = mi2.doc_summary) := by
  refine ⟨?_, ?_, ?_⟩
  · intro d h
    exact docLoop_characterization src (findDeclMatches src nm) d h
  · intro h
    exact docLoop_none src (findDeclMatches src nm) h
  · intro mi1 h1 mi2 h2 hname
    obtain ⟨m1, _, _, rfl⟩ := (mem_process_methods src ms mi1).mp h1
    obtain ⟨m2, _, _, rfl⟩ := (mem_process_methods src ms mi2).mp h2
    have hn : m1.name = m2.name := hname
    show extract_doc_for_member src m1.name = extract_doc_for_member src m2.name
    rw [hn]

theorem C10_doc_resolution_witness :
    (mkMethodInfo
      ("/// Doc A.\npublic void Foo(int a) \x7b\x7d\n\npublic void Foo(int a, int b) \x7b\x7d".toList)
      ⟨[], "public".toList, false, false, false, false, false,
        "void".toList, "Foo".toList, "int a".toList⟩).doc_summary =
    (mkMethodInfo
      ("/// Doc A.\npublic void Foo(int a) \x7b\x7d\n\npublic void Foo(int a, int b) \x7b\x7d".toList)
      ⟨[], "public".toList, false, false, false, false, false,
        "void".toList, "Foo".toList, "int a, int b".toList⟩).doc_summary := by
  refine (C10_doc_resolution
    ("/// Doc A.\npublic void Foo(int a) \x7b\x7d\n\npublic void Foo(int a, int b) \x7b\x7d".toList)
    ("Foo".toList)
    [⟨[], "public".toList, false, false, false, false, false,
      "void".toList, "Foo".toList, "int a".toList⟩,
     ⟨[], "public".toList, false, false, false, false, false,
      "void".toList, "Foo".toList, "int a, int b".toList⟩]).2.2 _ ?_ _ ?_ rfl
  · exact (mem_process_methods _ _ _).mpr
      ⟨_, by simp, by decide, rfl⟩
  · exact (mem_process_methods _ _ _).mpr
      ⟨_, by simp, by decide, rfl⟩

/-- The `EnumInfo` dataclass (source lines 33-37). -/
structure EnumInfo where
  name : List Char
  access : List Char
  values : List (List Char)
deriving DecidableEq

/-- The `ClassInfo` dataclass (source lines 90-105).  The modifier flag for
the third class modifier keyword is named `is_partial_mod` here; the
`nested_classes` field is omitted because the source declares it but never
populates or reads it. -/
structure ClassInfo where
  name : List Char
  access : List Char
  base_classes : List (List Char)
  is_abstract : Bool
  is_static : Bool
  is_partial_mod : Bool
  is_struct : Bool
  is_interface : Bool
  fields : List FieldInfo
  properties : List PropertyInfo
  methods : List MethodInfo
  enums : List EnumInfo
  class_doc : Option (List Char)
deriving DecidableEq

/-- The `FileInfo` dataclass (source lines 107-118); the namespace attribute
is renamed `namespace_name` to avoid the Lean keyword. -/
structure FileInfo where
  filepath : List Char
  filename : List Char
  namespace_name : Option (List Char)
  usings : List (List Char)
  classes : List ClassInfo
  top_level_enums : List EnumInfo
  project_dependencies : List (List Char)
  file_doc_comment : Option (List Char)
  has_editor_guard : Bool
  raw_source : List Char
deriving DecidableEq

/-- Removal step for `<.*>` (source line 671): at `<`, the greedy dot runs to
the last `>` on the same line; no match when no `>` follows on the line. -/
def angleSubStep (cs : List Char) : Option Nat :=
  match cs with
  | '<' :: rest =>
    (match ((rest.takeWhile (fun c => !(c == '\n'))).reverse.findIdx?
        (fun c => c == '>')) with
     | some k =>
        some (1 + ((rest.takeWhile (fun c => !(c == '\n'))).length - k))
     | none => none)
  | _ => none

/-- Base-class cleaning of `_resolve_dependencies` (source line 671):
`re.sub(r'<.*>', '', b).strip()`. -/
def cleanBaseName (b : List Char) : List Char :=
  pyStrip (scanRemove angleSubStep b.length b)

/-- Character-class replacement `re.sub(r'[\[\]<>,\?\s]', ' ', s)`
(source lines 676, 682, 688, 693). -/
def replaceDepChars (s : List Char) : List Char :=
  s.map (fun c =>
    if c = '[' ∨ c = ']' ∨ c = '<' ∨ c = '>' ∨ c = ',' ∨ c = '?' ∨
        pyIsSpace c = true then ' '
    else c)

theorem length_dropWhile_le_self (p : Char → Bool) (l : List Char) :
    (l.dropWhile p).length ≤ l.length := by
  induction l with
  | nil => simp
  | cons a as ih =>
    by_cases h : p a
    · rw [List.dropWhile_cons_of_pos h]
      simp only [List.length_cons]
      omega
    · rw [List.dropWhile_cons_of_neg h]

/-- Python `s.split()`: whitespace-separated tokens, empties discarded. -/
def splitWs : List Char → List (List Char)
  | [] => []
  | c :: rest =>
    if pyIsSpace c then splitWs rest
    else
      (c :: rest.takeWhile (fun x => !pyIsSpace x)) ::
        splitWs (rest.dropWhile (fun x => !pyIsSpace x))
termination_by cs => cs.length
decreasing_by
  · simp only [List.length_cons]; omega
  · have := length_dropWhile_le_self (fun x => !pyIsSpace x) rest
    simp only [List.length_cons]; omega

/-- Token extraction of `_resolve_dependencies` for a member type string
(source lines 676-696): replace bracket/comma/whitespace punctuation by
spaces, then split on whitespace. -/
def typeTokens (s : List Char) : List (List Char) :=
  splitWs (replaceDepChars s)

/-- The `.cs` suffix of the filename-table lookups. -/
def csSuffix : List Char := ".cs".toList

/-- All candidate dependency tokens contributed by one class (source lines
668-696): cleaned base-class names, then type tokens of every field,
property, method return type and method parameter. -/
def clsDepTokens (cls : ClassInfo) : List (List Char) :=
  cls.base_classes.map cleanBaseName ++
    cls.fields.bind (fun f => typeTokens f.type_name) ++
    cls.properties.bind (fun p => typeTokens p.type_name) ++
    cls.methods.bind (fun m =>
      typeTokens m.return_type ++
        m.parameters.bind (fun q => typeTokens q.type_name))

/-- Lexicographic order on character lists (Python's string order). -/
def lexLeChars : List Char → List Char → Bool
  | [], _ => true
  | _ :: _, [] => false
  | a :: as, b :: bs =>
    if a < b then true else if b < a then false else lexLeChars as bs

def insertSortedName (x : List Char) : List (List Char) → List (List Char)
  | [] => [x]
  | y :: ys => if lexLeChars x y then x :: y :: ys else y :: insertSortedName x ys

/-- Insertion sort standing in for Python `sorted` (source line 697); only
the multiset identity of the result matters for the claims. -/
def sortNames : List (List Char) → List (List Char)
  | [] => []
  | x :: xs => insertSortedName x (sortNames xs)

theorem insertSortedName_perm (x : List Char) (l : List (List Char)) :
    (insertSortedName x l).Perm (x :: l) := by
  induction l with
  | nil => simp [insertSortedName]
  | cons y ys ih =>
    by_cases h : lexLeChars x y = true
    · simp [insertSortedName, h]
    · simp only [insertSortedName, if_neg h]
      exact (ih.cons y).trans (List.Perm.swap x y ys)

theorem sortNames_perm (l : List (List Char)) : (sortNames l).Perm l := by
  induction l with
  | nil => simp [sortNames]
  | cons x xs ih =>
    exact (insertSortedName_perm x (sortNames xs)).trans (ih.cons x)

/-- `_resolve_dependencies` for one unit (source lines 666-697): every
member-derived token guarded by the filename test is collected into the
`dep_names` set (each `add` site carries the identical guard), and the
distinct surviving names are returned sorted. -/
def resolve_dependencies_for (fi : FileInfo) (all_filenames : List (List Char)) :
    List (List Char) :=
  sortNames
    (((fi.classes.bind clsDepTokens).filter
        (fun t => (t ++ csSuffix) ∈ all_filenames ∧ (t ++ csSuffix) ≠ fi.filename)).dedup)

/-- `_resolve_dependencies(all_files, all_filenames)` (source lines 663-697):
populates every unit's `project_dependencies`. -/
def resolve_dependencies (all_files : List FileInfo)
    (all_filenames : List (List Char)) : List FileInfo :=
  all_files.map (fun fi =>
    ⟨fi.filepath, fi.filename, fi.namespace_name, fi.usings, fi.classes,
      fi.top_level_enums, resolve_dependencies_for fi all_filenames,
      fi.file_doc_comment, fi.has_editor_guard, fi.raw_source⟩)

theorem mem_resolve_dependencies_for (fi : FileInfo)
    (fns : List (List Char)) (t : List Char) :
    t ∈ resolve_dependencies_for fi fns ↔
      (t ∈ fi.classes.bind clsDepTokens ∧ (t ++ csSuffix) ∈ fns ∧
        (t ++ csSuffix) ≠ fi.filename) := by
  unfold resolve_dependencies_for
  rw [(sortNames_perm _).mem_iff, List.mem_dedup, List.mem_filter]
  simp

/-- A plain identifier for the dependency scan: non-empty and free of the
characters that the punctuation replacement turns into separators. -/
def isDepIdent (s : List Char) : Prop :=
  s ≠ [] ∧ ∀ c ∈ s,
    ¬ (c = '[' ∨ c = ']' ∨ c = '<' ∨ c = '>' ∨ c = ',' ∨ c = '?' ∨
        pyIsSpace c = true)

instance isDepIdentDec (s : List Char) : Decidable (isDepIdent s) := by
  unfold isDepIdent; infer_instance

theorem replaceDepChars_of_ident {s : List Char}
    (h : ∀ c ∈ s, ¬ (c = '[' ∨ c = ']' ∨ c = '<' ∨ c = '>' ∨ c = ',' ∨
      c = '?' ∨ pyIsSpace c = true)) :
    replaceDepChars s = s := by
  induction s with
  | nil => rfl
  | cons c rest ih =>
    unfold replaceDepChars
    simp only [List.map_cons]
    rw [if_neg (h c (List.mem_cons_self c rest))]
    have := ih (fun x hx => h x (List.mem_cons_of_mem c hx))
    unfold replaceDepChars at this
    rw [this]

theorem typeTokens_of_ident {s : List Char} (h : isDepIdent s) :
    typeTokens s = [s] := by
  obtain ⟨hne, hall⟩ := h
  unfold typeTokens
  rw [replaceDepChars_of_ident hall]
  obtain ⟨c, rest, rfl⟩ := List.exists_cons_of_ne_nil hne
  have hc : pyIsSpace c = false := by
    have := hall c (List.mem_cons_self c rest)
    simp only [not_or] at this
    rcases Bool.eq_false_or_eq_true (pyIsSpace c) with h | h
    · exact absurd h this.2.2.2.2.2.2
    · exact h
  have hrest : ∀ x ∈ rest, (!pyIsSpace x) = true := by
    intro x hx
    have := hall x (List.mem_cons_of_mem c hx)
    simp only [not_or] at this
    rcases Bool.eq_false_or_eq_true (pyIsSpace x) with h | h
    · exact absurd h this.2.2.2.2.2.2
    · simp [h]
  unfold splitWs
  rw [if_neg (by simp [hc])]
  rw [List.takeWhile_eq_self_iff.mpr hrest, List.dropWhile_eq_nil_iff.mpr
    (by intro x hx; exact hrest x hx)]
  simp [splitWs]

/-- C1: for a corpus of parsed units whose filename table is exactly the
units' filenames (the code identifies a unit's primary declared type name
with its filename stem), the Dependency Resolver records no edge from a unit
to itself, records an edge only to a name naming another unit of the corpus,
records each (unit, name) edge at most once, and preserves two-unit cycles:
when unit A has a field whose declared type is unit B's name and vice versa,
both the A-to-B and the B-to-A edge are present. -/
theorem C1_dependency_resolver (files : List FileInfo)
    (fns : List (List Char)) (hfns : fns = files.map FileInfo.filename)
    (fi : FileInfo) (_hfi : fi ∈ files) :
    (∀ t ∈ resolve_dependencies_for fi fns, (t ++ csSuffix) ≠ fi.filename) ∧
    (∀ t ∈ resolve_dependencies_for fi fns,
      ∃ g ∈ files, g.filename = t ++ csSuffix ∧ g.filename ≠ fi.filename) ∧
    (resolve_dependencies_for fi fns).Nodup ∧
    (∀ (A B : FileInfo) (nA nB : List Char),
      A ∈ files → B ∈ files →
      A.filename = nA ++ csSuffix → B.filename = nB ++ csSuffix →
      A.filename ≠ B.filename →
      isDepIdent nA → isDepIdent nB →
      (∃ cls ∈ A.classes, ∃ fld ∈ cls.fields, fld.type_name = nB) →
      (∃ cls ∈ B.classes, ∃ fld ∈ cls.fields, fld.type_name = nA) →
      nB ∈ resolve_dependencies_for A fns ∧
        nA ∈ resolve_dependencies_for B fns) := by
  refine ⟨?_, ?_, ?_, ?_⟩
  · intro t ht
    exact ((mem_resolve_dependencies_for fi fns t).mp ht).2.2
  · intro t ht
    obtain ⟨_, hmem, hne⟩ := (mem_resolve_dependencies_for fi fns t).mp ht
    rw [hfns] at hmem
    obtain ⟨g, hg, hgf⟩ := List.mem_map.mp hmem
    exact ⟨g, hg, hgf, by rw [hgf]; exact hne⟩
  · exact ((sortNames_perm _).nodup_iff).mpr (List.nodup_dedup _)
  · intro A B nA nB hA hB hAf hBf hAB hidA hidB hfldA hfldB
    have edge : ∀ (X Y : FileInfo) (nY : List Char), X ∈ files → Y ∈ files →
        Y.filename = nY ++ csSuffix → X.filename ≠ Y.filename → isDepIdent nY →
        (∃ cls ∈ X.classes, ∃ fld ∈ cls.fields, fld.type_name = nY) →
        nY ∈ resolve_dependencies_for X fns := by
      intro X Y nY hX hY hYf hXY hid hfld
      apply (mem_resolve_dependencies_for X fns nY).mpr
      obtain ⟨cls, hcls, fld, hfld', hty⟩ := hfld
      refine ⟨?_, ?_, ?_⟩
      · apply List.mem_bind.mpr
        refine ⟨cls, hcls, ?_⟩
        unfold clsDepTokens
        have : nY ∈ cls.fields.bind (fun f => typeTokens f.type_name) := by
          apply List.mem_bind.mpr
          refine ⟨fld, hfld', ?_⟩
          rw [hty, typeTokens_of_ident hid]
          exact List.mem_singleton.mpr rfl
        simp only [List.append_assoc, List.mem_append]
        exact Or.inr (Or.inl this)
      · rw [hfns, ← hYf]
        exact List.mem_map.mpr ⟨Y, hY, rfl⟩
      · rw [← hYf]
        exact fun h => hXY h.symm
    exact ⟨edge A B nB hA hB hBf hAB hidB hfldA,
      edge B A nA hB hA hAf (fun h => hAB h.symm) hidA hfldB⟩

/-- A concrete two-unit corpus for the dependency resolver: unit A's class
has a field of type `B`, unit B's class has a field of type `A`. -/
def depWitnessUnitA : FileInfo :=
  ⟨"A.cs".toList, "A.cs".toList, none, [],
    [⟨"A".toList, "public".toList, [], false, false, false, false, false,
      [⟨"b".toList, "B".toList, "public".toList, false, false, false, false,
        none, none, none⟩], [], [], [], none⟩],
    [], [], none, false, []⟩

def depWitnessUnitB : FileInfo :=
  ⟨"B.cs".toList, "B.cs".toList, none, [],
    [⟨"B".toList, "public".toList, [], false, false, false, false, false,
      [⟨"a".toList, "A".toList, "public".toList, false, false, false, false,
        none, none, none⟩], [], [], [], none⟩],
    [], [], none, false, []⟩

theorem C1_dependency_resolver_witness :
    "B".toList ∈ resolve_dependencies_for depWitnessUnitA
      ["A.cs".toList, "B.cs".toList] ∧
    "A".toList ∈ resolve_dependencies_for depWitnessUnitB
      ["A.cs".toList, "B.cs".toList] := by
  have h := (C1_dependency_resolver [depWitnessUnitA, depWitnessUnitB]
    ["A.cs".toList, "B.cs".toList] rfl depWitnessUnitA (by simp)).2.2.2
    depWitnessUnitA depWitnessUnitB ("A".toList) ("B".toList)
    (by simp) (by simp) rfl rfl (by decide) (by decide) (by decide)
    (by decide) (by decide)
  exact h
